import Mathlib

/-!
Verification of the `download` package of the gdrive repository: the
breadth-first Google-Drive tree walker (`listDriveFolderFiles` /
`listDriveFolder`), the JSON task-list store (`loadListFile` /
`saveListFile`) and the resumable transfer executor (the task loop of
`onRunDownload` together with `downloadDriveFile`).

The Go code is shallowly embedded: the remote Drive service and the local
filesystem become explicit oracles (records of functions), the mutable
task slice becomes explicit list passing, and loops become (fuelled or
structurally recursive) Lean functions that return, besides the final
task list, a trace of the observable effects (network fetches, backoff
sleeps, attempted task indices, checkpoint saves).
-/

namespace GDrive

/-- Task record of the download package (`type Task struct`), with its
JSON field tags `id`, `path`, `md5`, `done`. -/
structure Task where
  FileId : String
  SavePath : String
  Md5Checksum : String
  Done : Bool
deriving Repr, DecidableEq

/-- The metadata of one remote entry, as requested by the walker via
`Fields("id,name,mimeType,md5Checksum")`. -/
structure DriveFile where
  id : String
  name : String
  mimeType : String
  md5Checksum : String
deriving Repr, DecidableEq

/-- Go `strings.HasSuffix s suffix`. -/
def hasSuffix (s suffix : String) : Bool :=
  suffix.data.isSuffixOf s.data

/-- `isDriveFolder`: an entry is a folder iff its mime type ends in "folder". -/
def isDriveFolder (f : DriveFile) : Bool :=
  hasSuffix f.mimeType "folder"

/-- Split a character sequence on `/` (the component decomposition used
by Go `path/filepath.Clean`); `cur` is the reversed current component. -/
def splitOnSlash : List Char → List Char → List (List Char)
  | cur, [] => [cur.reverse]
  | cur, c :: rest =>
    if c = '/' then cur.reverse :: splitOnSlash [] rest
    else splitOnSlash (c :: cur) rest

/-- Core of Go `path/filepath.Clean` (unix): process the slash-separated
parts left to right keeping a reversed stack of kept components; `.` and
empty components are dropped, `..` pops a component unless the stack is
empty (at the root it is dropped, in a relative path it is kept). -/
def cleanRev (rooted : Bool) : List (List Char) → List (List Char) → List (List Char)
  | acc, [] => acc
  | acc, p :: rest =>
    if p = [] || p = ['.'] then cleanRev rooted acc rest
    else if p = ['.', '.'] then
      match acc with
      | [] => cleanRev rooted (if rooted then [] else [['.', '.']]) rest
      | top :: accTail =>
        if top = ['.', '.'] then cleanRev rooted (p :: top :: accTail) rest
        else cleanRev rooted accTail rest
    else cleanRev rooted (p :: acc) rest

/-- Go `path/filepath.Clean` on unix paths, over the character list. -/
def filepathCleanChars (cs : List Char) : List Char :=
  match cs with
  | [] => ['.']
  | _ :: _ =>
    let rooted : Bool := match cs with | '/' :: _ => true | _ => false
    let cleaned := (cleanRev rooted [] (splitOnSlash [] cs)).reverse
    let out := List.intercalate ['/'] cleaned
    if rooted then '/' :: out
    else if out = [] then ['.'] else out

/-- Go `path/filepath.Clean` on unix paths. -/
def filepathClean (path : String) : String :=
  String.mk (filepathCleanChars path.data)

/-- Go `path/filepath.Join` restricted to two elements, as used by the
walker and executor: empty leading elements are skipped and the result is
`Clean`ed. -/
def filepathJoin (p1 p2 : String) : String :=
  if p1.data = [] && p2.data = [] then ""
  else if p1.data = [] then String.mk (filepathCleanChars p2.data)
  else String.mk (filepathCleanChars (p1.data ++ '/' :: p2.data))

/-! ## Task list store (`loadListFile` / `saveListFile`)

`saveListFile` runs `fileTasks` through `encoding/json`'s encoder,
`loadListFile` decodes the document back into `[]Task`.  The embedding
works at the level of the JSON document tree: rendering the tree to text
and parsing it back are the Go standard library's exact inverses and are
not re-modelled. -/

/-- A JSON document tree. -/
inductive JsonValue where
  | null
  | bool (b : Bool)
  | num (n : Int)
  | str (s : String)
  | arr (elems : List JsonValue)
  | obj (fields : List (String × JsonValue))

/-- Go `encoding/json` marshalling of one `Task`: an object whose fields
appear in struct declaration order under their json tags. -/
def taskToJson (t : Task) : JsonValue :=
  .obj [("id", .str t.FileId), ("path", .str t.SavePath),
        ("md5", .str t.Md5Checksum), ("done", .bool t.Done)]

/-- `saveListFile`, up to text rendering: the persisted document of a
task list is the JSON array of its marshalled tasks, in order. -/
def saveListDoc (tasks : List Task) : JsonValue :=
  .arr (tasks.map taskToJson)

/-- First binding of a key in a JSON object. -/
def lookupField : List (String × JsonValue) → String → Option JsonValue
  | [], _ => none
  | (k, v) :: rest, key => if k = key then some v else lookupField rest key

/-- Go `encoding/json` unmarshalling of a string-typed struct field:
absent keys leave the zero value, a value of the wrong type is an error. -/
def getStrField (fields : List (String × JsonValue)) (key : String) : Except String String :=
  match lookupField fields key with
  | none => .ok ""
  | some (.str s) => .ok s
  | some _ => .error ("cannot unmarshal field " ++ key)

/-- Go `encoding/json` unmarshalling of a bool-typed struct field. -/
def getBoolField (fields : List (String × JsonValue)) (key : String) : Except String Bool :=
  match lookupField fields key with
  | none => .ok false
  | some (.bool b) => .ok b
  | some _ => .error ("cannot unmarshal field " ++ key)

/-- Go `encoding/json` unmarshalling of one `Task` from a JSON value. -/
def taskFromJson : JsonValue → Except String Task
  | .obj fields => do
    let fileId ← getStrField fields "id"
    let savePath ← getStrField fields "path"
    let md5 ← getStrField fields "md5"
    let done ← getBoolField fields "done"
    .ok ⟨fileId, savePath, md5, done⟩
  | _ => .error "cannot unmarshal Task"

/-- `loadListFile`, up to text parsing: decode the persisted document
back into the task list. -/
def loadListDoc : JsonValue → Except String (List Task)
  | .arr elems => elems.mapM taskFromJson
  | _ => .error "cannot unmarshal []Task"

/-! ## Tree walker (`listDriveFolderFiles` / `listDriveFolder`)

The authenticated Drive service becomes an oracle with the two calls the
walker makes: `Files.Get(id).Fields(...).Do()` and one page of
`Files.List().PageToken(tok)...Do()`.  The two unbounded loops (the
pagination loop and the queue loop) receive explicit fuel; every theorem
supplies enough fuel for the remote tree at hand. -/

/-- The remote service as seen by the walker: metadata by file id, and
one listing page `(files, nextPageToken)` per `(folderId, pageToken)`. -/
structure DriveService where
  getFile : String → Except String DriveFile
  listPage : String → String → Except String (List DriveFile × String)

/-- The pagination loop of `listDriveFolder`: request the page for the
current token; a failed request aborts with the wrapped error; an empty
page returns successfully at once; otherwise run the handler over the
page's entries (aborting on a handler error) and stop when the returned
`nextPageToken` is empty. -/
def listDriveFolderLoop {σ : Type} (getPage : String → Except String (List DriveFile × String))
    (handler : σ → DriveFile → Except String σ) :
    Nat → String → σ → Except String σ
  | 0, _, _ => .error "out of page fuel"
  | fuel + 1, pageToken, st =>
    match getPage pageToken with
    | .error e => .error ("Unable to list files, err = " ++ e)
    | .ok (files, nextPageToken) =>
      if files.isEmpty then .ok st
      else
        match files.foldlM handler st with
        | .error e => .error e
        | .ok st2 =>
          if nextPageToken = "" then .ok st2
          else listDriveFolderLoop getPage handler fuel nextPageToken st2

/-- `listDriveFolder service folderId handler`: run the pagination loop
from the empty page token. -/
def listDriveFolder {σ : Type} (service : DriveService) (folderId : String)
    (handler : σ → DriveFile → Except String σ) (pageFuel : Nat) (st : σ) : Except String σ :=
  listDriveFolderLoop (service.listPage folderId) handler pageFuel "" st

/-- The closure passed by `listDriveFolderFiles` to `listDriveFolder`:
the state is the pair (taskQueue after the popped front, fileTasks); a
folder child is pushed onto the queue, a file child is appended to the
output, both with `SavePath` joined from the popped task's `SavePath`
and the child's name. -/
def walkHandler (savePath : String) (st : List Task × List Task) (nextFile : DriveFile) :
    Except String (List Task × List Task) :=
  let dstFilePath := filepathJoin savePath nextFile.name
  let nextTask : Task := ⟨nextFile.id, dstFilePath, nextFile.md5Checksum, false⟩
  if isDriveFolder nextFile then .ok (st.1 ++ [nextTask], st.2)
  else .ok (st.1, st.2 ++ [nextTask])

/-- The queue loop of `listDriveFolderFiles`: pop the front task, fetch
its metadata (a failure aborts the walk), then either expand a folder
through `listDriveFolder` (a listing failure aborts the walk) or append
the file itself to the output with its name joined onto the task's
`SavePath`. -/
def listDriveFolderFilesLoop (service : DriveService) (pageFuel : Nat) :
    Nat → List Task → List Task → Except String (List Task)
  | 0, _, _ => .error "out of queue fuel"
  | fuel + 1, taskQueue, fileTasks =>
    match taskQueue with
    | [] => .ok fileTasks
    | task :: restQueue =>
      match service.getFile task.FileId with
      | .error e => .error ("get fileId: " ++ task.FileId ++ ", err = " ++ e)
      | .ok currFile =>
        if isDriveFolder currFile then
          match listDriveFolder service currFile.id (walkHandler task.SavePath) pageFuel
              (restQueue, fileTasks) with
          | .error e =>
            .error ("list drive folder: " ++ currFile.id ++ " [" ++ currFile.name ++
              "], err = " ++ e)
          | .ok (queue2, fileTasks2) =>
            listDriveFolderFilesLoop service pageFuel fuel queue2 fileTasks2
        else
          let dstFilePath := filepathJoin task.SavePath currFile.name
          listDriveFolderFilesLoop service pageFuel fuel restQueue
            (fileTasks ++ [⟨currFile.id, dstFilePath, currFile.md5Checksum, false⟩])

/-- `listDriveFolderFiles service rootFolder`: run the queue loop on the
queue holding only the root task, with an empty output list. -/
def listDriveFolderFiles (service : DriveService) (pageFuel fuel : Nat)
    (rootFolder : Task) : Except String (List Task) :=
  listDriveFolderFilesLoop service pageFuel fuel [rootFolder] []

/-! ### Remote trees

To state what the walk computes we model a concrete remote hierarchy as
a finitely-branching tree and connect it to a `DriveService` oracle. -/

/-- A remote tree: a file entry with id, display name and md5 checksum,
or a folder entry with its (ordered) children. -/
inductive RTree where
  | file (id name md5 : String)
  | dir (id name : String) (children : List RTree)

/-- The id of a remote entry. -/
def rid : RTree → String
  | .file id _ _ => id
  | .dir id _ _ => id

/-- The metadata record the service reports for a remote entry; folders
carry the Drive folder mime type and no checksum. -/
def rmeta : RTree → DriveFile
  | .file id name md5 => ⟨id, name, "text/plain", md5⟩
  | .dir id name _ => ⟨id, name, "application/vnd.google-apps.folder", ""⟩

mutual

/-- All subtree occurrences of a remote tree (the entry itself and,
recursively, everything under it). -/
def subEntries : RTree → List RTree
  | .file id name md5 => [.file id name md5]
  | .dir id name cs => .dir id name cs :: subEntriesList cs

/-- All subtree occurrences of a list of remote trees. -/
def subEntriesList : List RTree → List RTree
  | [] => []
  | c :: rest => subEntries c ++ subEntriesList rest

end

mutual

/-- Size of a remote tree (number of entries). -/
def tsize : RTree → Nat
  | .file _ _ _ => 1
  | .dir _ _ cs => 1 + tsizeList cs

/-- Total size of a list of remote trees. -/
def tsizeList : List RTree → Nat
  | [] => 0
  | c :: rest => tsize c + tsizeList rest

end

/-- One service call pair is answered consistently with the tree: the
metadata of the entry, and — for a folder — a single listing page holding
exactly the children's metadata with an empty continuation token. -/
def entryOk (service : DriveService) (s : RTree) : Bool :=
  match service.getFile (rid s) with
  | .error _ => false
  | .ok f =>
    f == rmeta s &&
      match s with
      | .file _ _ _ => true
      | .dir id _ cs =>
        match service.listPage id "" with
        | .error _ => false
        | .ok (files, tok) => files == cs.map rmeta && tok == ""

/-- The service answers every entry reachable in the tree consistently. -/
def Represents (service : DriveService) (t : RTree) : Prop :=
  ∀ s ∈ subEntries t, entryOk service s = true

/-- The queue task corresponding to a pending pair (entry, stored
`SavePath`): exactly the shape of the root task and of every task
`listDriveFolderFiles` pushes for a folder child. -/
def mkQueueTask (ep : RTree × String) : Task :=
  ⟨rid ep.1, ep.2, "", false⟩

/-- The file tasks produced among the children of a folder whose
`SavePath` is `base`, in child order. -/
def filePendTasks (base : String) : List RTree → List Task
  | [] => []
  | RTree.file id name md5 :: rest =>
    ⟨id, filepathJoin base name, md5, false⟩ :: filePendTasks base rest
  | RTree.dir _ _ _ :: rest => filePendTasks base rest

/-- The pending pairs pushed for the folder children of a folder whose
`SavePath` is `base`, in child order. -/
def dirPendings (base : String) : List RTree → List (RTree × String)
  | [] => []
  | RTree.file _ _ _ :: rest => dirPendings base rest
  | RTree.dir id name cs :: rest =>
    (RTree.dir id name cs, filepathJoin base name) :: dirPendings base rest

/-- Output contribution of processing one pending pair: a popped file is
emitted with its name joined onto the stored path; a popped folder emits
its file children (folders themselves contribute no task). -/
def stepOut : RTree × String → List Task
  | (RTree.file id name md5, sp) => [⟨id, filepathJoin sp name, md5, false⟩]
  | (RTree.dir _ _ cs, sp) => filePendTasks sp cs

/-- Queue contribution of processing one pending pair: the folder
children, each with its name joined onto the stored path. -/
def stepNext : RTree × String → List (RTree × String)
  | (RTree.file _ _ _, _) => []
  | (RTree.dir _ _ cs, sp) => dirPendings sp cs

/-- Total tree size of a pending list. -/
def pendSize : List (RTree × String) → Nat
  | [] => 0
  | ep :: rest => tsize ep.1 + pendSize rest

theorem tsize_pos (t : RTree) : 1 ≤ tsize t := by
  cases t <;> simp [tsize]

theorem pendSize_append (a b : List (RTree × String)) :
    pendSize (a ++ b) = pendSize a + pendSize b := by
  induction a with
  | nil => simp [pendSize]
  | cons ep rest ih => simp [pendSize, ih]; omega

theorem dirPendings_size (base : String) (cs : List RTree) :
    pendSize (dirPendings base cs) ≤ tsizeList cs := by
  induction cs with
  | nil => simp [dirPendings, pendSize, tsizeList]
  | cons c rest ih =>
    cases c with
    | file id name md5 =>
      simp [dirPendings, tsizeList]
      omega
    | dir id name cs2 =>
      simp [dirPendings, tsizeList, pendSize, tsize]
      omega

theorem stepNext_size (ep : RTree × String) : pendSize (stepNext ep) < tsize ep.1 := by
  obtain ⟨e, sp⟩ := ep
  cases e with
  | file id name md5 => simp [stepNext, pendSize, tsize]
  | dir id name cs =>
    have h := dirPendings_size sp cs
    simp only [stepNext, tsize]
    omega

/-- The breadth-first specification of the walk: process the pending
list as a FIFO queue, emitting each pair's output contribution and
enqueueing its folder children at the back. -/
def bfsSpec : List (RTree × String) → List Task
  | [] => []
  | ep :: rest => stepOut ep ++ bfsSpec (rest ++ stepNext ep)
termination_by pending => pendSize pending
decreasing_by
  simp only [pendSize, pendSize_append]
  have h1 := stepNext_size ep
  omega

/-- The depth-first enumeration of the file tasks below a list of
children whose parent folder's `SavePath` is `base`: each file child
becomes one task at `filepathJoin base name`; each folder child's
subtree is enumerated at its own joined path.  Every reachable file
occurs exactly once. -/
def pendList : List RTree → String → List Task
  | [], _ => []
  | RTree.file id name md5 :: rest, base =>
    ⟨id, filepathJoin base name, md5, false⟩ :: pendList rest base
  | RTree.dir _ name cs :: rest, base =>
    pendList cs (filepathJoin base name) ++ pendList rest base
termination_by cs _ => tsizeList cs
decreasing_by
  all_goals (simp only [tsizeList, tsize]; omega)

/-- Depth-first enumeration of the file tasks of one pending pair. -/
def pendFiles : RTree → String → List Task
  | RTree.file id name md5, sp => [⟨id, filepathJoin sp name, md5, false⟩]
  | RTree.dir _ _ cs, sp => pendList cs sp

/-- Depth-first enumeration of a pending list. -/
def pendAll : List (RTree × String) → List Task
  | [] => []
  | ep :: rest => pendFiles ep.1 ep.2 ++ pendAll rest

mutual

/-- Number of files in a remote tree. -/
def fcount : RTree → Nat
  | .file _ _ _ => 1
  | .dir _ _ cs => fcountList cs

/-- Number of files in a list of remote trees. -/
def fcountList : List RTree → Nat
  | [] => 0
  | c :: rest => fcount c + fcountList rest

end

/-! ## Transfer executor (the task loop of `onRunDownload`)

`downloadDriveFile` touches the world through three capabilities: the
md5 of the local file at a path (`getFileMd5`, empty when unreadable),
the network fetch of a file's content (`Download()`), and the local
write (`saveFile`).  The executor loop is additionally abstracted over
a per-(task index, attempt number) download outcome `dl i k = (error?,
fetched?)` — `downloadDriveFile` called for task `i` on attempt `k` —
and over the outcome of each checkpoint `saveListFile` call, whose
result the Go code discards (`_ = saveListFile(...)`).

The loop returns the final task list together with the trace of its
observable effects. -/

/-- Local-filesystem and network capabilities of `downloadDriveFile`. -/
structure ExecEnv where
  localMd5 : String → String
  fetch : String → Option String
  save : String → Option String

/-- `downloadDriveFile`: skip (no fetch) when the expected checksum and
the local file's checksum are both non-empty and equal; otherwise fetch
the remote content and write it, wrapping either failure.  Returns
(error?, whether a network fetch was performed).  The
`service.Files.Get(task.FileId)` at the top of the Go function only
builds a lazy call object — the sole network operation is `Download()`,
modelled by `fetch`. -/
def downloadDriveFileM (env : ExecEnv) (task : Task) : Option String × Bool :=
  let dstFileMd5 := env.localMd5 task.SavePath
  if task.Md5Checksum != "" && dstFileMd5 != "" && dstFileMd5 == task.Md5Checksum then
    (none, false)
  else
    match env.fetch task.FileId with
    | some e => (some ("download file: " ++ task.SavePath ++ ", err = " ++ e), true)
    | none =>
      match env.save task.SavePath with
      | some e => (some ("save file: " ++ task.SavePath ++ ", err = " ++ e), true)
      | none => (none, true)

/-- The download oracle induced by a fixed world: every attempt for task
`i` runs `downloadDriveFile` on the i-th task of the list. -/
def dlOfEnv (env : ExecEnv) (tasks : List Task) : Nat → Nat → Option String × Bool :=
  fun i _ => downloadDriveFileM env (tasks.getD i ⟨"", "", "", false⟩)

/-- The retry loop `for k := 1; k <= 5; k++`: run the attempt, stop on
success, otherwise sleep `k*5` seconds and retry; after attempt 5 the
last error stands.  Returns (final error, fetches performed, sleep
durations in seconds, in order). -/
def retryGo (att : Nat → Option String × Bool) (k : Nat) (err : Option String)
    (fetches : Nat) (sleeps : List Nat) : Option String × Nat × List Nat :=
  if 5 < k then (err, fetches, sleeps)
  else
    let r := att k
    let fetches2 := if r.2 then fetches + 1 else fetches
    match r.1 with
    | none => (none, fetches2, sleeps)
    | some msg => retryGo att (k + 1) (some msg) fetches2 (sleeps ++ [k * 5])
termination_by 6 - k

/-- One `log.Printf` call of the task loop of `onRunDownload`, with the
arguments the source passes to it.  The four constructors are, in source
order: the skip line of a done task, the per-task progress line (whose
percentage is derived from the index and the total and is therefore
carried as those two numbers), the per-failed-attempt retry line, and
the line printed when the retries are exhausted.  The checkpoint branch
(`_ = saveListFile(...)`) and the final save contain no logging call, so
no constructor corresponds to them and the loop emits no event there. -/
inductive LogEvent where
  | skipping (i total : Nat) (path : String)
  | downloading (i total : Nat)
  | retrying (k sleepSeconds : Nat) (err : String)
  | downloadFailed (err : String)
deriving Repr, DecidableEq

/-- The log lines of the retry loop, one `retrying` event per failed
attempt, in order — the logging projection of the same
`for k := 1; k <= 5; k++` loop that `retryGo` embeds (the download
oracle is pure, so querying it again yields the attempts' outcomes). -/
def retryEvents (att : Nat → Option String × Bool) (k : Nat) : List LogEvent :=
  if 5 < k then []
  else
    match (att k).1 with
    | none => []
    | some msg => .retrying k (k * 5) msg :: retryEvents att (k + 1)
termination_by 6 - k

/-- Trace and outcome of an executor run: final task list, run error (a
task whose retries were exhausted), number of network fetches, backoff
sleeps, indices for which `downloadDriveFile` was invoked, indices that
were newly marked done, periodic checkpoint snapshots, and the log lines
emitted by the loop. -/
structure ExecOut where
  tasks : List Task
  err : Option String
  fetches : Nat
  sleeps : List Nat
  attempted : List Nat
  completed : List Nat
  checkpoints : List (List Task)
  logs : List LogEvent
deriving Repr, DecidableEq

/-- The task loop of `onRunDownload`, from index `i` with `n` iterations
left (the wrapper supplies `n = tasks.length`): skip tasks already done
(logging the skip); otherwise log the progress line and run the retry
loop — on failure log the error and break out of the loop (later tasks
untouched), on success mark the task done and, after every 10th
completed task, checkpoint the list via `saveListFile`, whose outcome is
discarded without any logging. -/
def execGo (dl : Nat → Nat → Option String × Bool) (saveRes : List Task → Option String) :
    Nat → Nat → List Task → ExecOut
  | 0, _, tasks => ⟨tasks, none, 0, [], [], [], [], []⟩
  | n + 1, i, tasks =>
    if h : i < tasks.length then
      let task := tasks[i]
      if task.Done then
        let rest := execGo dl saveRes n (i + 1) tasks
        { rest with logs := .skipping i tasks.length task.SavePath :: rest.logs }
      else
        let r := retryGo (dl i) 1 none 0 []
        let evs := LogEvent.downloading i tasks.length :: retryEvents (dl i) 1
        match r.1 with
        | some e => ⟨tasks, some e, r.2.1, r.2.2, [i], [], [],
            evs ++ [.downloadFailed e]⟩
        | none =>
          let tasks2 := tasks.set i { task with Done := true }
          let saved : List (List Task) :=
            if (i + 1) % 10 == 0 then
              let _ := saveRes tasks2
              [tasks2]
            else []
          let rest := execGo dl saveRes n (i + 1) tasks2
          ⟨rest.tasks, rest.err, r.2.1 + rest.fetches, r.2.2 ++ rest.sleeps,
            i :: rest.attempted, i :: rest.completed, saved ++ rest.checkpoints,
            evs ++ rest.logs⟩
    else ⟨tasks, none, 0, [], [], [], [], []⟩

/-- A full executor run: the task loop over the whole list followed by
the unconditional final `saveListFile` (performed whether the loop
finished or broke out on an exhausted task, its outcome discarded). -/
def execRun (dl : Nat → Nat → Option String × Bool) (saveRes : List Task → Option String)
    (tasks : List Task) : ExecOut :=
  let r := execGo dl saveRes tasks.length 0 tasks
  let _ := saveRes r.tasks
  { r with checkpoints := r.checkpoints ++ [r.tasks] }

/-! ## Concrete instances used by witnesses -/

deriving instance DecidableEq for Except

/-- A small concrete remote tree: a root folder holding one file, one
non-empty subfolder, and one empty subfolder. -/
def treeW : RTree :=
  .dir "r" "root"
    [.file "f1" "a.txt" "m1",
     .dir "d1" "sub" [.file "f2" "b.txt" "m2"],
     .dir "d2" "empty" []]

/-- A concrete service answering consistently for `treeW`. -/
def svcW : DriveService where
  getFile := fun id =>
    if id = "r" then .ok ⟨"r", "root", "application/vnd.google-apps.folder", ""⟩
    else if id = "f1" then .ok ⟨"f1", "a.txt", "text/plain", "m1"⟩
    else if id = "d1" then .ok ⟨"d1", "sub", "application/vnd.google-apps.folder", ""⟩
    else if id = "f2" then .ok ⟨"f2", "b.txt", "text/plain", "m2"⟩
    else if id = "d2" then .ok ⟨"d2", "empty", "application/vnd.google-apps.folder", ""⟩
    else .error "file not found"
  listPage := fun folderId pageToken =>
    if pageToken = "" then
      if folderId = "r" then
        .ok ([⟨"f1", "a.txt", "text/plain", "m1"⟩,
              ⟨"d1", "sub", "application/vnd.google-apps.folder", ""⟩,
              ⟨"d2", "empty", "application/vnd.google-apps.folder", ""⟩], "")
      else if folderId = "d1" then .ok ([⟨"f2", "b.txt", "text/plain", "m2"⟩], "")
      else if folderId = "d2" then .ok ([], "")
      else .error "folder not found"
    else .error "bad page token"

/-- The page chain a service serves for one folder from a start token:
`PagesFrom getPage tok pages` holds when requesting `tok` yields the
first page of `pages` and the returned continuation tokens chain through
the remaining pages, the last response carrying an empty token. -/
inductive PagesFrom (getPage : String → Except String (List DriveFile × String)) :
    String → List (List DriveFile) → Prop
  | last {tok : String} {files : List DriveFile} :
      getPage tok = .ok (files, "") → PagesFrom getPage tok [files]
  | more {tok tok2 : String} {files : List DriveFile} {rest : List (List DriveFile)} :
      getPage tok = .ok (files, tok2) → tok2 ≠ "" → PagesFrom getPage tok2 rest →
      PagesFrom getPage tok (files :: rest)

/-- A listing handler that cannot fail, folding a pure accumulator. -/
def pureHandler {σ : Type} (g : σ → DriveFile → σ) : σ → DriveFile → Except String σ :=
  fun st f => .ok (g st f)

/-- A service whose listing calls always fail. -/
def svc7 : DriveService where
  getFile := fun id =>
    if id = "D" then .ok ⟨"D", "docs", "application/vnd.google-apps.folder", ""⟩
    else .error "file not found"
  listPage := fun _ _ => .error "boom"

/-- Two concrete file entries for the pagination witness. -/
def fileA : DriveFile := ⟨"a", "a.txt", "text/plain", "ma"⟩

/-- Second concrete file entry for the pagination witness. -/
def fileB : DriveFile := ⟨"b", "b.txt", "text/plain", "mb"⟩

/-- A paginated listing: page one holds `fileA` with continuation token
`t1`, page two holds `fileB` with an empty continuation token. -/
def getPageTwo : String → Except String (List DriveFile × String) := fun tok =>
  if tok = "" then .ok ([fileA], "t1")
  else if tok = "t1" then .ok ([fileB], "")
  else .error "bad page token"

/-- A listing whose first page is empty (zero children). -/
def getPageEmpty : String → Except String (List DriveFile × String) := fun tok =>
  if tok = "" then .ok ([], "") else .error "bad page token"

/-- Accumulating listing handler used by witnesses. -/
def collectFiles : List DriveFile → DriveFile → List DriveFile := fun acc f => acc ++ [f]

/-- A service whose root identifier names a single file. -/
def svc9 : DriveService where
  getFile := fun id =>
    if id = "F1" then .ok ⟨"F1", "a.txt", "text/plain", "abc123"⟩
    else .error "file not found"
  listPage := fun _ _ => .error "not a folder"

/-- A download oracle whose every attempt succeeds after a fetch. -/
def dlAlwaysOk : Nat → Nat → Option String × Bool := fun _ _ => (none, true)

/-- The fields of a task other than its `Done` flag. -/
def taskKey (t : Task) : String × String × String :=
  (t.FileId, t.SavePath, t.Md5Checksum)

/-- A download oracle that fails the first four attempts of every task
and succeeds from the fifth on. -/
def dlFail4 : Nat → Nat → Option String × Bool :=
  fun _ k => if k ≤ 4 then (some "connection reset", true) else (none, true)

/-- A download oracle whose every attempt fails. -/
def dlFailAll : Nat → Nat → Option String × Bool :=
  fun _ _ => (some "remote unreachable", true)

/-- A checkpoint-save oracle whose every save fails. -/
def saveFailDisk : List Task → Option String := fun _ => some "disk full"

/-- Ten pending tasks, so a run completes a 10th task and triggers the
periodic checkpoint save besides the final one. -/
def tasksTen : List Task :=
  [⟨"g0", "q0", "", false⟩, ⟨"g1", "q1", "", false⟩, ⟨"g2", "q2", "", false⟩,
   ⟨"g3", "q3", "", false⟩, ⟨"g4", "q4", "", false⟩, ⟨"g5", "q5", "", false⟩,
   ⟨"g6", "q6", "", false⟩, ⟨"g7", "q7", "", false⟩, ⟨"g8", "q8", "", false⟩,
   ⟨"g9", "q9", "", false⟩]

/-! ## Theorems -/

theorem isDriveFolder_rmeta_file (id name md5 : String) :
    isDriveFolder (rmeta (RTree.file id name md5)) = false := rfl

theorem isDriveFolder_rmeta_dir (id name : String) (cs : List RTree) :
    isDriveFolder (rmeta (RTree.dir id name cs)) = true := rfl

theorem entryOk_getFile {svc : DriveService} {s : RTree} (h : entryOk svc s = true) :
    svc.getFile (rid s) = .ok (rmeta s) := by
  unfold entryOk at h
  cases hg : svc.getFile (rid s) with
  | error e => rw [hg] at h; simp at h
  | ok f =>
    rw [hg] at h
    simp only [Bool.and_eq_true, beq_iff_eq] at h
    rw [h.1]

theorem entryOk_listPage {svc : DriveService} {id name : String} {cs : List RTree}
    (h : entryOk svc (RTree.dir id name cs) = true) :
    svc.listPage id "" = .ok (cs.map rmeta, "") := by
  unfold entryOk at h
  cases hg : svc.getFile (rid (RTree.dir id name cs)) with
  | error e => rw [hg] at h; simp at h
  | ok f =>
    rw [hg] at h
    simp only [Bool.and_eq_true, beq_iff_eq] at h
    obtain ⟨-, h⟩ := h
    cases hl : svc.listPage id "" with
    | error e => rw [hl] at h; simp at h
    | ok pr =>
      rw [hl] at h
      obtain ⟨files, tok⟩ := pr
      simp only [Bool.and_eq_true, beq_iff_eq] at h
      rw [h.1, h.2]

theorem self_mem_subEntries (s : RTree) : s ∈ subEntries s := by
  cases s <;> simp [subEntries]

theorem mem_subEntriesList {c : RTree} {cs : List RTree} (hc : c ∈ cs) :
    ∀ s ∈ subEntries c, s ∈ subEntriesList cs := by
  induction cs with
  | nil => cases hc
  | cons c2 rest ih =>
    intro s hs
    rcases List.mem_cons.mp hc with h | h
    · subst h
      simp [subEntriesList, hs]
    · simp [subEntriesList, ih h s hs]

theorem mem_subEntries_dir {c : RTree} {cs : List RTree} (hc : c ∈ cs) (id name : String) :
    ∀ s ∈ subEntries c, s ∈ subEntries (RTree.dir id name cs) := by
  intro s hs
  simp only [subEntries, List.mem_cons]
  exact Or.inr (mem_subEntriesList hc s hs)

theorem mem_dirPendings {base : String} {cs : List RTree} {ep : RTree × String}
    (h : ep ∈ dirPendings base cs) : ep.1 ∈ cs := by
  induction cs with
  | nil => cases h
  | cons c rest ih =>
    cases c with
    | file id name md5 =>
      simp only [dirPendings] at h
      exact List.mem_cons_of_mem _ (ih h)
    | dir id name cs2 =>
      simp only [dirPendings, List.mem_cons] at h
      rcases h with h | h
      · rw [h]; simp
      · exact List.mem_cons_of_mem _ (ih h)

theorem isDriveFolder_mime_file (id name md5 : String) :
    isDriveFolder ⟨id, name, "text/plain", md5⟩ = false := rfl

theorem isDriveFolder_mime_dir (id name md5 : String) :
    isDriveFolder ⟨id, name, "application/vnd.google-apps.folder", md5⟩ = true := rfl

theorem walkHandler_fold (sp : String) (cs : List RTree) :
    ∀ q out : List Task,
      List.foldlM (walkHandler sp) (q, out) (cs.map rmeta) =
        .ok (q ++ (dirPendings sp cs).map mkQueueTask, out ++ filePendTasks sp cs) := by
  induction cs with
  | nil =>
    intro q out
    simp only [List.map_nil, List.foldlM_nil, dirPendings, filePendTasks, List.map_nil,
      List.append_nil]
    rfl
  | cons c rest ih =>
    intro q out
    cases c with
    | file id name md5 =>
      simp only [List.map_cons, List.foldlM_cons, walkHandler, rmeta,
        isDriveFolder_mime_file, Bool.false_eq_true, if_false, bind, Except.bind]
      rw [ih]
      simp [filePendTasks, dirPendings]
    | dir id name cs2 =>
      simp only [List.map_cons, List.foldlM_cons, walkHandler, rmeta,
        isDriveFolder_mime_dir, if_true, bind, Except.bind]
      rw [ih]
      simp [filePendTasks, dirPendings, mkQueueTask, rid]

theorem walkLoop_eq_bfsSpec (svc : DriveService) :
    ∀ (fuel : Nat) (pending : List (RTree × String)) (acc : List Task) (pageFuel : Nat),
      pendSize pending < fuel → 0 < pageFuel →
      (∀ ep ∈ pending, ∀ s ∈ subEntries ep.1, entryOk svc s = true) →
      listDriveFolderFilesLoop svc pageFuel fuel (pending.map mkQueueTask) acc =
        .ok (acc ++ bfsSpec pending) := by
  intro fuel
  induction fuel with
  | zero => intro pending acc pf hsize hpf hinv; omega
  | succ n ih =>
    intro pending acc pf hsize hpf hinv
    cases pending with
    | nil => simp [listDriveFolderFilesLoop, bfsSpec]
    | cons ep rest =>
      obtain ⟨e, sp⟩ := ep
      have hok : entryOk svc e = true := hinv (e, sp) (by simp) e (self_mem_subEntries e)
      have hget := entryOk_getFile hok
      cases e with
      | file id name md5 =>
        simp only [List.map_cons, listDriveFolderFilesLoop, mkQueueTask, rid] at hget ⊢
        rw [hget]
        simp only [rmeta, isDriveFolder_mime_file, Bool.false_eq_true, if_false]
        rw [ih rest _ pf (by simp only [pendSize] at hsize ⊢; have := tsize_pos (RTree.file id name md5); omega) hpf
          (fun ep2 hep2 => hinv ep2 (List.mem_cons_of_mem _ hep2))]
        rw [bfsSpec]
        simp only [stepOut, stepNext, List.append_nil, List.append_assoc,
          List.singleton_append]
      | dir id name cs =>
        have hlist := entryOk_listPage hok
        simp only [List.map_cons, listDriveFolderFilesLoop, mkQueueTask, rid] at hget ⊢
        rw [hget]
        simp only [rmeta, isDriveFolder_mime_dir, if_true]
        obtain ⟨m, rfl⟩ : ∃ m, pf = m + 1 := ⟨pf - 1, by omega⟩
        simp only [listDriveFolder, listDriveFolderLoop]
        rw [hlist]
        by_cases hcs : cs = []
        · subst hcs
          simp only [List.map_nil, List.isEmpty_nil, if_true]
          rw [ih rest _ (m + 1) (by simp only [pendSize, tsize, tsizeList] at hsize ⊢; omega)
            (by omega) (fun ep2 hep2 => hinv ep2 (List.mem_cons_of_mem _ hep2))]
          rw [bfsSpec]
          simp [stepOut, stepNext, filePendTasks, dirPendings]
        · have hne : (cs.map rmeta).isEmpty = false := by
            cases cs with
            | nil => exact absurd rfl hcs
            | cons a b => simp
          simp only [hne, Bool.false_eq_true, if_false, walkHandler_fold, reduceIte]
          have hqueue : (rest.map mkQueueTask) ++ (dirPendings sp cs).map mkQueueTask =
              (rest ++ dirPendings sp cs).map mkQueueTask := (List.map_append ..).symm
          rw [hqueue,
            ih (rest ++ dirPendings sp cs) _ (m + 1)
              (by
                have h1 := dirPendings_size sp cs
                simp only [pendSize, tsize, pendSize_append] at hsize ⊢
                omega)
              (by omega)
              (by
                intro ep2 hep2
                rcases List.mem_append.mp hep2 with h | h
                · exact hinv ep2 (List.mem_cons_of_mem _ h)
                · intro s hs
                  exact hinv (RTree.dir id name cs, sp) (by simp) s
                    (mem_subEntries_dir (mem_dirPendings h) id name s hs))]
          rw [bfsSpec]
          simp only [stepOut, stepNext, List.append_assoc]

theorem pendAll_append (a b : List (RTree × String)) :
    pendAll (a ++ b) = pendAll a ++ pendAll b := by
  induction a with
  | nil => simp [pendAll]
  | cons ep rest ih => simp [pendAll, ih]

theorem pendList_perm (sp : String) (cs : List RTree) :
    (pendList cs sp).Perm (filePendTasks sp cs ++ pendAll (dirPendings sp cs)) := by
  induction cs with
  | nil => simp [pendList, filePendTasks, dirPendings, pendAll]
  | cons c rest ih =>
    cases c with
    | file id name md5 =>
      rw [pendList]
      simp only [filePendTasks, dirPendings, List.cons_append]
      exact ih.cons _
    | dir id name cs2 =>
      rw [pendList]
      simp only [filePendTasks, dirPendings, pendAll, pendFiles]
      refine (ih.append_left _).trans ?_
      rw [← List.append_assoc]
      refine ((List.perm_append_comm).append_right _).trans ?_
      rw [List.append_assoc]

theorem pendFiles_perm_step (ep : RTree × String) :
    (pendFiles ep.1 ep.2).Perm (stepOut ep ++ pendAll (stepNext ep)) := by
  obtain ⟨e, sp⟩ := ep
  cases e with
  | file id name md5 => simp [pendFiles, stepOut, stepNext, pendAll]
  | dir id name cs => simpa [pendFiles, stepOut, stepNext] using pendList_perm sp cs

theorem bfsSpec_perm_pendAll (pending : List (RTree × String)) :
    (bfsSpec pending).Perm (pendAll pending) := by
  induction pending using bfsSpec.induct with
  | case1 => simp [bfsSpec, pendAll]
  | case2 ep rest ih =>
    rw [bfsSpec, pendAll]
    refine (ih.append_left _).trans ?_
    rw [pendAll_append]
    refine ((List.perm_append_comm).append_left _).trans ?_
    rw [← List.append_assoc]
    exact (pendFiles_perm_step ep).symm.append_right _

theorem pendList_length (cs : List RTree) (base : String) :
    (pendList cs base).length = fcountList cs := by
  induction cs, base using pendList.induct with
  | case1 base => simp [pendList, fcountList]
  | case2 id name md5 rest base ih =>
    rw [pendList]
    simp [fcountList, fcount, ih]
    omega
  | case3 id name cs rest base ih1 ih2 =>
    rw [pendList]
    simp [fcountList, fcount, ih1, ih2]

theorem pendFiles_length (t : RTree) (sp : String) :
    (pendFiles t sp).length = fcount t := by
  cases t with
  | file id name md5 => simp [pendFiles, fcount]
  | dir id name cs => simp [pendFiles, fcount, pendList_length]

/-- C1: for a service consistently answering for a remote tree, given
enough fuel, the walk succeeds and produces exactly the deterministic
breadth-first task sequence `bfsSpec`; that sequence is a permutation of
the depth-first enumeration `pendFiles`, in which every reachable file
occurrence contributes exactly one task whose `SavePath` joins the
parent's path with the entry's name, and folders contribute no task;
its length is the number of reachable files. -/
theorem walk_breadth_first_exhaustive (svc : DriveService) (t : RTree) (dst : String)
    (pageFuel fuel : Nat) (h1 : Represents svc t) (h2 : tsize t < fuel)
    (h3 : 0 < pageFuel) :
    listDriveFolderFiles svc pageFuel fuel ⟨rid t, dst, "", false⟩ =
        .ok (bfsSpec [(t, dst)]) ∧
      (bfsSpec [(t, dst)]).Perm (pendFiles t dst) ∧
      (pendFiles t dst).length = fcount t := by
  refine ⟨?_, ?_, pendFiles_length t dst⟩
  · have h := walkLoop_eq_bfsSpec svc fuel [(t, dst)] [] pageFuel
      (by simp only [pendSize]; omega) h3
      (by
        intro ep hep
        simp only [List.mem_singleton] at hep
        subst hep
        exact h1)
    simpa [listDriveFolderFiles, mkQueueTask] using h
  · have h := bfsSpec_perm_pendAll [(t, dst)]
    simpa [pendAll] using h

/-- Witness for C1 at the concrete tree `treeW`. -/
theorem walk_breadth_first_exhaustive_witness :
    listDriveFolderFiles svcW 1 10 ⟨"r", "dl", "", false⟩ =
        .ok (bfsSpec [(treeW, "dl")]) ∧
      (bfsSpec [(treeW, "dl")]).Perm (pendFiles treeW "dl") ∧
      (pendFiles treeW "dl").length = fcount treeW :=
  walk_breadth_first_exhaustive svcW treeW "dl" 1 10 (by unfold Represents; decide)
    (by decide) (by decide)

/-- C7: when the metadata of the popped queue element is a folder and
listing it fails, the whole walk returns that error (wrapped with the
folder's id and name) — whatever tasks had been accumulated and whatever
is still queued, no task list is returned. -/
theorem walk_listing_failure_aborts (svc : DriveService) (pageFuel fuel : Nat)
    (task : Task) (restQueue acc : List Task) (currFile : DriveFile) (e : String)
    (hget : svc.getFile task.FileId = .ok currFile)
    (hdir : isDriveFolder currFile = true)
    (hfail : listDriveFolder svc currFile.id (walkHandler task.SavePath) pageFuel
      (restQueue, acc) = .error e) :
    listDriveFolderFilesLoop svc pageFuel (fuel + 1) (task :: restQueue) acc =
        .error ("list drive folder: " ++ currFile.id ++ " [" ++ currFile.name ++
          "], err = " ++ e) ∧
      ∀ out, listDriveFolderFilesLoop svc pageFuel (fuel + 1) (task :: restQueue) acc ≠
        .ok out := by
  have h1 : listDriveFolderFilesLoop svc pageFuel (fuel + 1) (task :: restQueue) acc =
      .error ("list drive folder: " ++ currFile.id ++ " [" ++ currFile.name ++
        "], err = " ++ e) := by
    simp only [listDriveFolderFilesLoop, hget, hdir, if_true, hfail]
  refine ⟨h1, ?_⟩
  intro out
  rw [h1]
  simp

/-- Witness for C7: the walk over `svc7` aborts on the listing failure,
discarding the already-accumulated task. -/
theorem walk_listing_failure_aborts_witness :
    listDriveFolderFilesLoop svc7 1 1 [⟨"D", "out", "", false⟩] [⟨"p", "q", "r", false⟩] =
        .error ("list drive folder: " ++ "D" ++ " [" ++ "docs" ++ "], err = " ++
          "Unable to list files, err = boom") ∧
      ∀ out, listDriveFolderFilesLoop svc7 1 1 [⟨"D", "out", "", false⟩]
        [⟨"p", "q", "r", false⟩] ≠ .ok out :=
  walk_listing_failure_aborts svc7 1 0 ⟨"D", "out", "", false⟩ []
    [⟨"p", "q", "r", false⟩] ⟨"D", "docs", "application/vnd.google-apps.folder", ""⟩
    "Unable to list files, err = boom" (by decide) (by decide) (by decide)

theorem foldlM_pureHandler {σ : Type} (g : σ → DriveFile → σ) (l : List DriveFile) :
    ∀ st, List.foldlM (pureHandler g) st l = .ok (List.foldl g st l) := by
  induction l with
  | nil => intro st; rfl
  | cons f rest ih =>
    intro st
    simp only [List.foldlM_cons, pureHandler, bind, Except.bind, List.foldl_cons]
    exact ih _

/-- C8: the pagination loop keeps requesting pages while the service
returns a non-empty continuation token, feeding every entry of every
page to the handler in order, and stops when the token is empty; a
container with zero children ends the loop successfully on the first,
empty page — it is not an error. -/
theorem listDriveFolder_pagination :
    (∀ (σ : Type) (g : σ → DriveFile → σ)
        (getPage : String → Except String (List DriveFile × String))
        (pages : List (List DriveFile)) (tok : String) (st : σ) (fuel : Nat),
        PagesFrom getPage tok pages → (∀ p ∈ pages, p ≠ []) → pages.length ≤ fuel →
        listDriveFolderLoop getPage (pureHandler g) fuel tok st =
          .ok (List.foldl g st pages.flatten)) ∧
    (∀ (σ : Type) (handler : σ → DriveFile → Except String σ)
        (getPage : String → Except String (List DriveFile × String))
        (st : σ) (fuel : Nat) (tok2 : String),
        getPage "" = .ok ([], tok2) →
        listDriveFolderLoop getPage handler (fuel + 1) "" st = .ok st) := by
  constructor
  · intro σ g getPage pages tok st fuel hp
    induction hp generalizing st fuel with
    | @last tok files hpage =>
      intro hne hfuel
      obtain ⟨f, rfl⟩ : ∃ f, fuel = f + 1 :=
        ⟨fuel - 1, by simp only [List.length_singleton] at hfuel; omega⟩
      have hfne : files ≠ [] := hne files (by simp)
      have hfe : files.isEmpty = false := by
        cases files with
        | nil => exact absurd rfl hfne
        | cons a b => rfl
      simp only [listDriveFolderLoop, hpage, hfe, Bool.false_eq_true, if_false,
        foldlM_pureHandler, reduceIte]
      simp
    | @more tok tok2 files rest hpage htok hrest ih =>
      intro hne hfuel
      obtain ⟨f, rfl⟩ : ∃ f, fuel = f + 1 :=
        ⟨fuel - 1, by simp only [List.length_cons] at hfuel; omega⟩
      have hfne : files ≠ [] := hne files (by simp)
      have hfe : files.isEmpty = false := by
        cases files with
        | nil => exact absurd rfl hfne
        | cons a b => rfl
      simp only [listDriveFolderLoop, hpage, hfe, Bool.false_eq_true, if_false,
        foldlM_pureHandler, if_neg htok]
      rw [ih (List.foldl g st files) f
        (fun p hp2 => hne p (List.mem_cons_of_mem _ hp2))
        (by simp only [List.length_cons] at hfuel; omega)]
      simp
  · intro σ handler getPage st fuel tok2 hpage
    simp only [listDriveFolderLoop, hpage, List.isEmpty_nil, if_true]

/-- Witness for C8: a two-page listing accumulates both pages' entries;
an empty first page ends the loop successfully. -/
theorem listDriveFolder_pagination_witness :
    listDriveFolderLoop getPageTwo (pureHandler collectFiles) 2 "" [] =
        .ok (List.foldl collectFiles [] ([[fileA], [fileB]].flatten)) ∧
      listDriveFolderLoop getPageEmpty (pureHandler collectFiles) 1 "" [] = .ok [] :=
  ⟨listDriveFolder_pagination.1 (List DriveFile) collectFiles getPageTwo
      [[fileA], [fileB]] "" [] 2
      (@PagesFrom.more getPageTwo "" "t1" [fileA] [[fileB]] (by decide) (by decide)
        (@PagesFrom.last getPageTwo "t1" [fileB] (by decide)))
      (by decide) (by decide),
    listDriveFolder_pagination.2 (List DriveFile) (pureHandler collectFiles)
      getPageEmpty [] 0 "" (by decide)⟩

/-- C9 counterexample: with the root id `F1` naming a single file (name
`a.txt`, fingerprint `abc123`) and destination `./out`, the walk does
not produce the task `{id:F1, path:"./out", md5:abc123, done:false}`
claimed — it joins the file's name onto the destination, yielding
`out/a.txt`. -/
theorem walk_single_file_counterexample :
    listDriveFolderFiles svc9 1 2 ⟨"F1", "./out", "", false⟩ =
        .ok [⟨"F1", "out/a.txt", "abc123", false⟩] ∧
      listDriveFolderFiles svc9 1 2 ⟨"F1", "./out", "", false⟩ ≠
        .ok [⟨"F1", "./out", "abc123", false⟩] := by
  exact ⟨by decide, by decide⟩

/-- C9 amended: when the root identifier names a single FILE, the walk
produces exactly one task whose path is `filepath.Join(dst, name)` (for
destination `./out` and name `a.txt`: `out/a.txt`) with the file's
fingerprint and `done=false`; executing that task list with a download
that succeeds marks the task `done=true` with no run error. -/
theorem walk_single_file_amended (svc : DriveService) (task : Task) (cf : DriveFile)
    (pageFuel fuel : Nat) (dl : Nat → Nat → Option String × Bool)
    (saveRes : List Task → Option String)
    (hget : svc.getFile task.FileId = .ok cf)
    (hfile : isDriveFolder cf = false)
    (hdl : (dl 0 1).1 = none) :
    listDriveFolderFiles svc pageFuel (fuel + 2) task =
        .ok [⟨cf.id, filepathJoin task.SavePath cf.name, cf.md5Checksum, false⟩] ∧
      (execRun dl saveRes
          [⟨cf.id, filepathJoin task.SavePath cf.name, cf.md5Checksum, false⟩]).err =
        none ∧
      (execRun dl saveRes
          [⟨cf.id, filepathJoin task.SavePath cf.name, cf.md5Checksum, false⟩]).tasks =
        [⟨cf.id, filepathJoin task.SavePath cf.name, cf.md5Checksum, true⟩] := by
  refine ⟨?_, ?_⟩
  · simp only [listDriveFolderFiles, listDriveFolderFilesLoop, hget, hfile,
      Bool.false_eq_true, if_false, List.nil_append]
  · have hretry : (retryGo (dl 0) 1 none 0 []).1 = none := by
      rw [retryGo]
      simp only [show ¬(5 < 1) from by omega, if_false]
      cases hr : (dl 0 1) with
      | mk e b =>
        have : e = none := by
          have := hdl
          rw [hr] at this
          exact this
        subst this
        simp
    constructor
    · simp only [execRun, execGo, List.length_singleton]
      cases hr2 : (retryGo (dl 0) 1 none 0 []) with
      | mk e r2 =>
        have he : e = none := by rw [hr2] at hretry; exact hretry
        subst he
        simp [execGo]
    · simp only [execRun, execGo, List.length_singleton]
      cases hr2 : (retryGo (dl 0) 1 none 0 []) with
      | mk e r2 =>
        have he : e = none := by rw [hr2] at hretry; exact hretry
        subst he
        simp [execGo, List.set]

/-- Witness for the amended C9 at the concrete single-file service. -/
theorem walk_single_file_amended_witness :
    listDriveFolderFiles svc9 1 2 ⟨"F1", "./out", "", false⟩ =
        .ok [⟨"F1", "out/a.txt", "abc123", false⟩] ∧
      (execRun dlAlwaysOk (fun _ => none)
          [⟨"F1", "out/a.txt", "abc123", false⟩]).err = none ∧
      (execRun dlAlwaysOk (fun _ => none)
          [⟨"F1", "out/a.txt", "abc123", false⟩]).tasks =
        [⟨"F1", "out/a.txt", "abc123", true⟩] :=
  walk_single_file_amended svc9 ⟨"F1", "./out", "", false⟩
    ⟨"F1", "a.txt", "text/plain", "abc123"⟩ 1 0 dlAlwaysOk (fun _ => none)
    (by decide) (by decide) (by decide)

theorem taskFromJson_taskToJson (t : Task) : taskFromJson (taskToJson t) = .ok t := by
  cases t; rfl

/-- C2: loading the persisted document written by save yields the task
list back unchanged — same number of tasks, same order, and every field
(`id`, `path`, `md5`, `done`) of every task preserved. -/
theorem load_save_roundtrip (tasks : List Task) :
    loadListDoc (saveListDoc tasks) = .ok tasks := by
  simp only [saveListDoc, loadListDoc]
  induction tasks with
  | nil => rfl
  | cons t rest ih =>
    simp only [List.map_cons, List.mapM_cons, taskFromJson_taskToJson]
    simp only [bind, Except.bind] at ih ⊢
    rw [ih]
    rfl

/-! ### Executor lemmas -/

theorem execGo_frame (dl : Nat → Nat → Option String × Bool)
    (saveRes : List Task → Option String) :
    ∀ n i tasks,
      ((execGo dl saveRes n i tasks).tasks.length = tasks.length) ∧
      (∀ j : Nat, (execGo dl saveRes n i tasks).tasks[j]?.map taskKey = tasks[j]?.map taskKey) ∧
      (∀ j : Nat, tasks[j]?.map Task.Done = some true →
        (execGo dl saveRes n i tasks).tasks[j]?.map Task.Done = some true) := by
  intro n
  induction n with
  | zero => intro i tasks; exact ⟨rfl, fun j => rfl, fun j h => h⟩
  | succ n ih =>
    intro i tasks
    simp only [execGo]
    by_cases h : i < tasks.length
    · simp only [dif_pos h]
      by_cases hd : tasks[i].Done
      · simp only [hd, if_true]
        exact ih (i + 1) tasks
      · simp only [hd, Bool.false_eq_true, if_false]
        cases hr : (retryGo (dl i) 1 none 0 []).1 with
        | some e => exact ⟨rfl, fun j => rfl, fun j hj => hj⟩
        | none =>
          obtain ⟨ih1, ih2, ih3⟩ := ih (i + 1) (tasks.set i { tasks[i] with Done := true })
          refine ⟨by rw [ih1, List.length_set], fun j => ?_, fun j hj => ?_⟩
          · rw [ih2 j, List.getElem?_set]
            by_cases hij : i = j
            · subst hij
              simp [h, List.getElem?_eq_getElem h, taskKey]
            · simp [hij]
          · refine ih3 j ?_
            rw [List.getElem?_set]
            by_cases hij : i = j
            · subst hij
              simp [h]
            · simpa [hij] using hj
    · simp [dif_neg h]

theorem retry_skipped (att : Nat → Option String × Bool) (h : att 1 = (none, false)) :
    retryGo att 1 none 0 [] = (none, 0, []) := by
  rw [retryGo]
  simp [h]

theorem retry_first_ok (att : Nat → Option String × Bool) (h : (att 1).1 = none) :
    (retryGo att 1 none 0 []).1 = none ∧ (retryGo att 1 none 0 []).2.2 = [] := by
  rw [retryGo]
  cases hr : att 1 with
  | mk e b =>
    have he : e = none := by rw [hr] at h; exact h
    subst he
    simp

theorem retry_fail4_ok5 (att : Nat → Option String × Bool)
    (hf : ∀ k, 1 ≤ k → k ≤ 4 → (att k).1 ≠ none) (h5 : (att 5).1 = none) :
    (retryGo att 1 none 0 []).1 = none ∧ (retryGo att 1 none 0 []).2.2 = [5, 10, 15, 20] := by
  obtain ⟨e1, h1⟩ := Option.ne_none_iff_exists'.mp (hf 1 (by omega) (by omega))
  obtain ⟨e2, h2⟩ := Option.ne_none_iff_exists'.mp (hf 2 (by omega) (by omega))
  obtain ⟨e3, h3⟩ := Option.ne_none_iff_exists'.mp (hf 3 (by omega) (by omega))
  obtain ⟨e4, h4⟩ := Option.ne_none_iff_exists'.mp (hf 4 (by omega) (by omega))
  constructor <;> simp [retryGo, h1, h2, h3, h4, h5]

theorem retry_allfail (att : Nat → Option String × Bool)
    (hf : ∀ k, 1 ≤ k → k ≤ 5 → (att k).1 ≠ none) :
    (retryGo att 1 none 0 []).1 = (att 5).1 ∧
      (retryGo att 1 none 0 []).2.2 = [5, 10, 15, 20, 25] := by
  obtain ⟨e1, h1⟩ := Option.ne_none_iff_exists'.mp (hf 1 (by omega) (by omega))
  obtain ⟨e2, h2⟩ := Option.ne_none_iff_exists'.mp (hf 2 (by omega) (by omega))
  obtain ⟨e3, h3⟩ := Option.ne_none_iff_exists'.mp (hf 3 (by omega) (by omega))
  obtain ⟨e4, h4⟩ := Option.ne_none_iff_exists'.mp (hf 4 (by omega) (by omega))
  obtain ⟨e5, h5⟩ := Option.ne_none_iff_exists'.mp (hf 5 (by omega) (by omega))
  constructor <;> simp [retryGo, h1, h2, h3, h4, h5]

theorem execGo_skip (dl : Nat → Nat → Option String × Bool)
    (saveRes : List Task → Option String) :
    ∀ k m j tasks,
      (∀ t, t < k → tasks[j + t]?.map Task.Done = some true) →
      ∃ evs, execGo dl saveRes (k + m) j tasks =
        { execGo dl saveRes m (j + k) tasks with
          logs := evs ++ (execGo dl saveRes m (j + k) tasks).logs } := by
  intro k
  induction k with
  | zero =>
    intro m j tasks h
    refine ⟨[], ?_⟩
    rw [Nat.zero_add, Nat.add_zero]
    simp
  | succ k ih =>
    intro m j tasks h
    have hj : tasks[j]?.map Task.Done = some true := by
      have := h 0 (by omega)
      simpa using this
    obtain ⟨a, ha, had⟩ : ∃ a, tasks[j]? = some a ∧ a.Done = true := by
      cases hq : tasks[j]? with
      | none => rw [hq] at hj; simp at hj
      | some a =>
        rw [hq] at hj
        simp at hj
        exact ⟨a, rfl, hj⟩
    have hlen : j < tasks.length := by
      by_contra hc
      rw [List.getElem?_eq_none (by omega)] at ha
      cases ha
    have hget : tasks[j] = a := by
      have := List.getElem?_eq_getElem hlen
      rw [this] at ha
      exact Option.some_inj.mp ha
    obtain ⟨evs, hevs⟩ := ih m (j + 1) tasks
      (fun t ht => by
        have := h (t + 1) (by omega)
        have harith : j + (t + 1) = j + 1 + t := by omega
        rwa [harith] at this)
    refine ⟨.skipping j tasks.length a.SavePath :: evs, ?_⟩
    have heq : (k + 1) + m = (k + m) + 1 := by omega
    rw [heq]
    simp only [execGo, dif_pos hlen, hget, had, if_true]
    rw [hevs]
    have harith2 : j + 1 + k = j + (k + 1) := by omega
    rw [harith2]
    simp

theorem execGo_abort (dl : Nat → Nat → Option String × Bool)
    (saveRes : List Task → Option String) (n i : Nat) (tasks : List Task)
    (hlen : i < tasks.length) (hnd : tasks[i].Done = false) {e : String}
    (hr : (retryGo (dl i) 1 none 0 []).1 = some e) :
    execGo dl saveRes (n + 1) i tasks =
      ⟨tasks, some e, (retryGo (dl i) 1 none 0 []).2.1,
        (retryGo (dl i) 1 none 0 []).2.2, [i], [], [],
        (LogEvent.downloading i tasks.length :: retryEvents (dl i) 1) ++
          [LogEvent.downloadFailed e]⟩ := by
  simp only [execGo, dif_pos hlen, hnd, Bool.false_eq_true, if_false, hr]

theorem execGo_pending_head (dl : Nat → Nat → Option String × Bool)
    (saveRes : List Task → Option String) (n i : Nat) (tasks : List Task)
    (hlen : i < tasks.length) (hnd : tasks[i].Done = false) :
    (execGo dl saveRes (n + 1) i tasks).attempted.head? = some i := by
  simp only [execGo, dif_pos hlen, hnd, Bool.false_eq_true, if_false]
  cases (retryGo (dl i) 1 none 0 []).1 <;> simp

theorem execGo_attempted (dl : Nat → Nat → Option String × Bool)
    (saveRes : List Task → Option String) :
    ∀ n i tasks,
      (∀ x ∈ (execGo dl saveRes n i tasks).attempted,
        i ≤ x ∧ x < tasks.length ∧ tasks[x]?.map Task.Done = some false) ∧
      List.Sorted (· < ·) (execGo dl saveRes n i tasks).attempted := by
  intro n
  induction n with
  | zero =>
    intro i tasks
    constructor
    · intro x hx
      simp [execGo] at hx
    · simp [execGo]
  | succ n ih =>
    intro i tasks
    simp only [execGo]
    by_cases h : i < tasks.length
    · simp only [dif_pos h]
      by_cases hd : tasks[i].Done
      · simp only [hd, if_true]
        obtain ⟨ihm, ihs⟩ := ih (i + 1) tasks
        exact ⟨fun x hx => by obtain ⟨a, b, c⟩ := ihm x hx; exact ⟨by omega, b, c⟩, ihs⟩
      · simp only [hd, Bool.false_eq_true, if_false]
        cases hr : (retryGo (dl i) 1 none 0 []).1 with
        | some e =>
          constructor
          · intro x hx
            simp only [List.mem_singleton] at hx
            subst hx
            exact ⟨le_refl x, h, by simp [List.getElem?_eq_getElem h, hd]⟩
          · simp
        | none =>
          obtain ⟨ihm, ihs⟩ := ih (i + 1) (tasks.set i { tasks[i] with Done := true })
          constructor
          · intro x hx
            simp only [List.mem_cons] at hx
            rcases hx with rfl | hx
            · exact ⟨le_refl x, h, by simp [List.getElem?_eq_getElem h, hd]⟩
            · obtain ⟨a, b, c⟩ := ihm x hx
              refine ⟨by omega, by simpa [List.length_set] using b, ?_⟩
              rw [List.getElem?_set] at c
              simpa [show ¬(i = x) by omega] using c
          · rw [List.sorted_cons]
            exact ⟨fun b hb => by have := (ihm b hb).1; omega, ihs⟩
    · constructor
      · intro x hx
        simp [dif_neg h] at hx
      · simp [dif_neg h]

theorem execGo_success (dl : Nat → Nat → Option String × Bool)
    (saveRes : List Task → Option String) :
    ∀ n i tasks,
      tasks.length ≤ i + n →
      (∀ j : Nat, i ≤ j → tasks[j]?.map Task.Done = some false →
        (retryGo (dl j) 1 none 0 []).1 = none) →
      (execGo dl saveRes n i tasks).err = none ∧
      (∀ j : Nat, i ≤ j → ∀ a, tasks[j]? = some a →
        (execGo dl saveRes n i tasks).tasks[j]?.map Task.Done = some true) := by
  intro n
  induction n with
  | zero =>
    intro i tasks hn hsucc
    constructor
    · rfl
    · intro j hij a ha
      have : j < tasks.length := by
        by_contra hc
        rw [List.getElem?_eq_none (by omega)] at ha
        cases ha
      omega
  | succ n ih =>
    intro i tasks hn hsucc
    simp only [execGo]
    by_cases h : i < tasks.length
    · simp only [dif_pos h]
      by_cases hd : tasks[i].Done
      · simp only [hd, if_true]
        obtain ⟨ih1, ih2⟩ := ih (i + 1) tasks (by omega) (fun j hj => hsucc j (by omega))
        refine ⟨ih1, fun j hij a ha => ?_⟩
        rcases Nat.eq_or_lt_of_le hij with heq | hlt
        · subst heq
          exact (execGo_frame dl saveRes n (i + 1) tasks).2.2 i
            (by simp [List.getElem?_eq_getElem h, hd])
        · exact ih2 j (by omega) a ha
      · simp only [hd, Bool.false_eq_true, if_false]
        have hnone : (retryGo (dl i) 1 none 0 []).1 = none :=
          hsucc i (le_refl i) (by simp [List.getElem?_eq_getElem h, hd])
        rw [hnone]
        have hset : ∀ j : Nat, i + 1 ≤ j →
            (tasks.set i { tasks[i] with Done := true })[j]? = tasks[j]? := by
          intro j hj
          rw [List.getElem?_set]
          simp [show ¬(i = j) by omega]
        obtain ⟨ih1, ih2⟩ := ih (i + 1) (tasks.set i { tasks[i] with Done := true })
          (by simp only [List.length_set]; omega)
          (fun j hj hdone => hsucc j (by omega) (by rwa [hset j hj] at hdone))
        refine ⟨ih1, fun j hij a ha => ?_⟩
        rcases Nat.eq_or_lt_of_le hij with heq | hlt
        · subst heq
          exact (execGo_frame dl saveRes n (i + 1) _).2.2 i
            (by rw [List.getElem?_set]; simp [h])
        · exact ih2 j (by omega) a (by rwa [hset j (by omega)])
    · simp only [dif_neg h]
      refine ⟨trivial, fun j hij a ha => ?_⟩
      have hjl : j < tasks.length := by
        by_contra hc
        rw [List.getElem?_eq_none (by omega)] at ha
        cases ha
      omega

theorem execRun_skip_to (dl : Nat → Nat → Option String × Bool)
    (saveRes : List Task → Option String) (tasks : List Task) (i : Nat)
    (hlen : i ≤ tasks.length)
    (hpre : ∀ j, j < i → tasks[j]?.map Task.Done = some true) :
    (execGo dl saveRes tasks.length 0 tasks).tasks =
        (execGo dl saveRes (tasks.length - i) i tasks).tasks ∧
      (execGo dl saveRes tasks.length 0 tasks).err =
        (execGo dl saveRes (tasks.length - i) i tasks).err ∧
      (execGo dl saveRes tasks.length 0 tasks).sleeps =
        (execGo dl saveRes (tasks.length - i) i tasks).sleeps ∧
      (execGo dl saveRes tasks.length 0 tasks).attempted =
        (execGo dl saveRes (tasks.length - i) i tasks).attempted := by
  obtain ⟨evs, hevs⟩ := execGo_skip dl saveRes i (tasks.length - i) 0 tasks
    (fun t ht => by simpa using hpre t (by omega))
  rw [Nat.zero_add] at hevs
  have hfuel : i + (tasks.length - i) = tasks.length := by omega
  rw [hfuel] at hevs
  rw [hevs]
  exact ⟨rfl, rfl, rfl, rfl⟩

/-- C3 (1): with the first `i` tasks already done and task `i` pending,
if its download fails on attempts 1–4 and succeeds on attempt 5, the
task ends marked done, the waits before retries 1–4 are 5, 10, 15 and 20
seconds (attempt number × 5s unit), and — provided every other pending
task's retry loop succeeds — the run reports no error; (2) if all five
attempts fail, the run aborts with the fifth attempt's error: the task
list is returned unchanged (the failed task and every later pending task
keep done=false), no other task is attempted after it, and the waits are
5, 10, 15, 20 and 25 seconds. -/
theorem exec_retry_backoff :
    (∀ (dl : Nat → Nat → Option String × Bool) (saveRes : List Task → Option String)
        (tasks : List Task) (i : Nat),
      i < tasks.length →
      (∀ j, j < i → tasks[j]?.map Task.Done = some true) →
      tasks[i]?.map Task.Done = some false →
      (∀ k, 1 ≤ k → k ≤ 4 → (dl i k).1 ≠ none) → (dl i 5).1 = none →
      (∀ j : Nat, j ≠ i → tasks[j]?.map Task.Done = some false →
        (retryGo (dl j) 1 none 0 []).1 = none) →
      (execRun dl saveRes tasks).err = none ∧
        (execRun dl saveRes tasks).tasks[i]?.map Task.Done = some true ∧
        (execRun dl saveRes tasks).sleeps.take 4 = [5, 10, 15, 20]) ∧
    (∀ (dl : Nat → Nat → Option String × Bool) (saveRes : List Task → Option String)
        (tasks : List Task) (i : Nat),
      i < tasks.length →
      (∀ j, j < i → tasks[j]?.map Task.Done = some true) →
      tasks[i]?.map Task.Done = some false →
      (∀ k, 1 ≤ k → k ≤ 5 → (dl i k).1 ≠ none) →
      (execRun dl saveRes tasks).err = (dl i 5).1 ∧ (dl i 5).1 ≠ none ∧
        (execRun dl saveRes tasks).tasks = tasks ∧
        (execRun dl saveRes tasks).attempted = [i] ∧
        (execRun dl saveRes tasks).sleeps = [5, 10, 15, 20, 25]) := by
  constructor
  · intro dl saveRes tasks i hlen hpre hi h14 h5 hothers
    have hiv : tasks[i].Done = false := by
      rw [List.getElem?_eq_getElem hlen] at hi
      simpa using hi
    obtain ⟨hsk_tasks, hsk_err, hsk_sleeps, hsk_att⟩ :=
      execRun_skip_to dl saveRes tasks i (by omega) hpre
    obtain ⟨m, hm⟩ : ∃ m, tasks.length - i = m + 1 := ⟨tasks.length - i - 1, by omega⟩
    rw [hm] at hsk_tasks hsk_err hsk_sleeps
    have hretry := retry_fail4_ok5 (dl i) h14 h5
    have hrun1 : (execRun dl saveRes tasks).err =
        (execGo dl saveRes (m + 1) i tasks).err := hsk_err
    have hrun2 : (execRun dl saveRes tasks).tasks =
        (execGo dl saveRes (m + 1) i tasks).tasks := hsk_tasks
    have hrun3 : (execRun dl saveRes tasks).sleeps =
        (execGo dl saveRes (m + 1) i tasks).sleeps := hsk_sleeps
    rw [hrun1, hrun2, hrun3]
    cases hr : retryGo (dl i) 1 none 0 [] with
    | mk e r2 =>
      have he : e = none := by
        have := hretry.1
        rw [hr] at this
        exact this
      subst he
      have hsl : r2.2 = [5, 10, 15, 20] := by
        have := hretry.2
        rw [hr] at this
        exact this
      simp only [execGo, dif_pos hlen, hiv, Bool.false_eq_true, if_false, hr]
      set tasks2 := tasks.set i { tasks[i] with Done := true } with htasks2
      have hset : ∀ j : Nat, j ≠ i → tasks2[j]? = tasks[j]? := by
        intro j hj
        rw [htasks2, List.getElem?_set]
        simp [show ¬(i = j) from fun hc => hj hc.symm]
      have hsucc := execGo_success dl saveRes m (i + 1) tasks2
        (by rw [htasks2]; simp only [List.length_set]; omega)
        (fun j hj hdone => hothers j (by omega) (by rwa [hset j (by omega)] at hdone))
      refine ⟨hsucc.1, ?_, ?_⟩
      · exact (execGo_frame dl saveRes m (i + 1) tasks2).2.2 i
          (by rw [htasks2, List.getElem?_set]; simp [hlen])
      · rw [hsl]
        rw [show (4 : Nat) = ([5, 10, 15, 20] : List Nat).length from rfl,
          List.take_left]
  · intro dl saveRes tasks i hlen hpre hi hf
    have hiv : tasks[i].Done = false := by
      rw [List.getElem?_eq_getElem hlen] at hi
      simpa using hi
    obtain ⟨hsk_tasks, hsk_err, hsk_sleeps, hsk_att⟩ :=
      execRun_skip_to dl saveRes tasks i (by omega) hpre
    obtain ⟨m, hm⟩ : ∃ m, tasks.length - i = m + 1 := ⟨tasks.length - i - 1, by omega⟩
    rw [hm] at hsk_tasks hsk_err hsk_sleeps hsk_att
    have hab := retry_allfail (dl i) hf
    obtain ⟨e5, he5⟩ := Option.ne_none_iff_exists'.mp (hf 5 (by omega) (by omega))
    have habort := execGo_abort dl saveRes m i tasks hlen hiv
      (e := e5) (by rw [hab.1, he5])
    refine ⟨?_, by rw [he5]; simp, ?_, ?_, ?_⟩
    · rw [show (execRun dl saveRes tasks).err =
        (execGo dl saveRes tasks.length 0 tasks).err from rfl, hsk_err, habort, he5]
    · rw [show (execRun dl saveRes tasks).tasks =
        (execGo dl saveRes tasks.length 0 tasks).tasks from rfl, hsk_tasks, habort]
    · rw [show (execRun dl saveRes tasks).attempted =
        (execGo dl saveRes tasks.length 0 tasks).attempted from rfl, hsk_att, habort]
    · rw [show (execRun dl saveRes tasks).sleeps =
        (execGo dl saveRes tasks.length 0 tasks).sleeps from rfl, hsk_sleeps, habort]
      exact hab.2

/-- Witness for C3: four failures then success completes the task with
backoffs 5/10/15/20s; five failures abort the run with the list
unchanged and backoffs 5/10/15/20/25s, without touching the later task. -/
theorem exec_retry_backoff_witness :
    ((execRun dlFail4 (fun _ => none) [⟨"t1", "p1", "m1", false⟩]).err = none ∧
      (execRun dlFail4 (fun _ => none)
          [⟨"t1", "p1", "m1", false⟩]).tasks[0]?.map Task.Done = some true ∧
      (execRun dlFail4 (fun _ => none)
          [⟨"t1", "p1", "m1", false⟩]).sleeps.take 4 = [5, 10, 15, 20]) ∧
    ((execRun dlFailAll (fun _ => none)
          [⟨"t2", "p2", "m2", false⟩, ⟨"t3", "p3", "m3", false⟩]).err =
        (dlFailAll 0 5).1 ∧ (dlFailAll 0 5).1 ≠ none ∧
      (execRun dlFailAll (fun _ => none)
          [⟨"t2", "p2", "m2", false⟩, ⟨"t3", "p3", "m3", false⟩]).tasks =
        [⟨"t2", "p2", "m2", false⟩, ⟨"t3", "p3", "m3", false⟩] ∧
      (execRun dlFailAll (fun _ => none)
          [⟨"t2", "p2", "m2", false⟩, ⟨"t3", "p3", "m3", false⟩]).attempted = [0] ∧
      (execRun dlFailAll (fun _ => none)
          [⟨"t2", "p2", "m2", false⟩, ⟨"t3", "p3", "m3", false⟩]).sleeps =
        [5, 10, 15, 20, 25]) :=
  ⟨exec_retry_backoff.1 dlFail4 (fun _ => none) [⟨"t1", "p1", "m1", false⟩] 0
      (by decide) (fun j hj => absurd hj (by omega)) (by decide)
      (by intro k h1 h4; simp [dlFail4, if_pos h4])
      (by decide)
      (by
        intro j hj hdone
        match j, hdone with
        | 0, hdone => exact absurd rfl hj
        | n + 1, hdone => simp at hdone),
    exec_retry_backoff.2 dlFailAll (fun _ => none)
      [⟨"t2", "p2", "m2", false⟩, ⟨"t3", "p3", "m3", false⟩] 0
      (by decide) (fun j hj => absurd hj (by omega)) (by decide)
      (by intro k h1 h5; simp [dlFailAll])⟩

theorem downloadDriveFileM_skip (env : ExecEnv) (task : Task)
    (h1 : task.Md5Checksum ≠ "") (h2 : env.localMd5 task.SavePath = task.Md5Checksum) :
    downloadDriveFileM env task = (none, false) := by
  unfold downloadDriveFileM
  rw [h2]
  simp [h1]

theorem dlOfEnv_at (env : ExecEnv) (tasks : List Task) (i : Nat) (a : Task)
    (ha : tasks[i]? = some a) (k : Nat) :
    dlOfEnv env tasks i k = downloadDriveFileM env a := by
  unfold dlOfEnv
  congr 1
  rw [List.getD_eq_getElem?_getD, ha]
  rfl

theorem execGo_fingerprint_skip (env : ExecEnv) (saveRes : List Task → Option String)
    (tasks : List Task) :
    ∀ n i cur,
      (∀ j : Nat, i ≤ j → cur[j]? = tasks[j]?) →
      (∀ j : Nat, ∀ a, tasks[j]? = some a → a.Done = true ∨
        (a.Md5Checksum ≠ "" ∧ env.localMd5 a.SavePath = a.Md5Checksum)) →
      (execGo (dlOfEnv env tasks) saveRes n i cur).fetches = 0 ∧
      (execGo (dlOfEnv env tasks) saveRes n i cur).err = none ∧
      (∀ j : Nat, i ≤ j → j < i + n → ∀ a, cur[j]? = some a →
        (execGo (dlOfEnv env tasks) saveRes n i cur).tasks[j]?.map Task.Done = some true) := by
  intro n
  induction n with
  | zero =>
    intro i cur hcur h
    exact ⟨rfl, rfl, fun j hij hjn a ha => by omega⟩
  | succ n ih =>
    intro i cur hcur h
    simp only [execGo]
    by_cases hl : i < cur.length
    · simp only [dif_pos hl]
      have hcuri : cur[i]? = some cur[i] := List.getElem?_eq_getElem hl
      have htaski : tasks[i]? = some cur[i] := by rw [← hcur i (le_refl i)]; exact hcuri
      by_cases hd : cur[i].Done
      · simp only [hd, if_true]
        obtain ⟨ih1, ih2, ih3⟩ := ih (i + 1) cur (fun j hj => hcur j (by omega)) h
        refine ⟨ih1, ih2, fun j hij hjn a ha => ?_⟩
        rcases Nat.eq_or_lt_of_le hij with heq | hlt
        · subst heq
          exact (execGo_frame (dlOfEnv env tasks) saveRes n (i + 1) cur).2.2 i
            (by rw [hcuri]; simp [hd])
        · exact ih3 j (by omega) (by omega) a ha
      · rcases h i cur[i] htaski with hdone | ⟨hmd5, hmatch⟩
        · exact absurd hdone hd
        have hdl : dlOfEnv env tasks i 1 = (none, false) := by
          rw [dlOfEnv_at env tasks i cur[i] htaski 1]
          exact downloadDriveFileM_skip env cur[i] hmd5 hmatch
        have hretry : retryGo (dlOfEnv env tasks i) 1 none 0 [] = (none, 0, []) :=
          retry_skipped _ hdl
        simp only [hd, Bool.false_eq_true, if_false, hretry]
        set cur2 := cur.set i { cur[i] with Done := true } with hcur2
        have hset : ∀ j : Nat, i + 1 ≤ j → cur2[j]? = cur[j]? := by
          intro j hj
          rw [hcur2, List.getElem?_set]
          simp [show ¬(i = j) by omega]
        obtain ⟨ih1, ih2, ih3⟩ := ih (i + 1) cur2
          (fun j hj => by rw [hset j hj]; exact hcur j (by omega)) h
        refine ⟨by simpa using ih1, ih2, fun j hij hjn a ha => ?_⟩
        rcases Nat.eq_or_lt_of_le hij with heq | hlt
        · subst heq
          exact (execGo_frame (dlOfEnv env tasks) saveRes n (i + 1) cur2).2.2 i
            (by rw [hcur2, List.getElem?_set]; simp [hl])
        · exact ih3 j (by omega) (by omega) a (by rw [hset j (by omega)]; exact ha)
    · simp only [dif_neg hl]
      refine ⟨trivial, trivial, fun j hij hjn a ha => ?_⟩
      have : j < cur.length := by
        by_contra hc
        rw [List.getElem?_eq_none (by omega)] at ha
        cases ha
      omega

/-- C4: re-running the executor on a list where every task is either
already done or has a non-empty expected fingerprint matching the local
file's fingerprint performs zero network fetches, reports no error, and
leaves every task marked done (the fingerprint-matching tasks are marked
done without fetching). -/
theorem exec_rerun_no_fetch (env : ExecEnv) (saveRes : List Task → Option String)
    (tasks : List Task)
    (h : ∀ j : Nat, ∀ a, tasks[j]? = some a → a.Done = true ∨
      (a.Md5Checksum ≠ "" ∧ env.localMd5 a.SavePath = a.Md5Checksum)) :
    (execRun (dlOfEnv env tasks) saveRes tasks).fetches = 0 ∧
      (execRun (dlOfEnv env tasks) saveRes tasks).err = none ∧
      (∀ j : Nat, j < tasks.length →
        (execRun (dlOfEnv env tasks) saveRes tasks).tasks[j]?.map Task.Done =
          some true) := by
  obtain ⟨h1, h2, h3⟩ := execGo_fingerprint_skip env saveRes tasks tasks.length 0 tasks
    (fun j hj => rfl) h
  exact ⟨h1, h2, fun j hj =>
    h3 j (by omega) (by omega) tasks[j] (List.getElem?_eq_getElem hj)⟩

/-- Witness for C4: one done task plus one pending task whose local
fingerprint matches — no fetch, no error, both done afterwards. -/
theorem exec_rerun_no_fetch_witness :
    (execRun (dlOfEnv ⟨fun p => if p = "p1" then "m1" else "", fun _ => some "offline",
        fun _ => none⟩ [⟨"a", "p0", "m0", true⟩, ⟨"b", "p1", "m1", false⟩])
      (fun _ => none) [⟨"a", "p0", "m0", true⟩, ⟨"b", "p1", "m1", false⟩]).fetches = 0 ∧
      (execRun (dlOfEnv ⟨fun p => if p = "p1" then "m1" else "", fun _ => some "offline",
          fun _ => none⟩ [⟨"a", "p0", "m0", true⟩, ⟨"b", "p1", "m1", false⟩])
        (fun _ => none) [⟨"a", "p0", "m0", true⟩, ⟨"b", "p1", "m1", false⟩]).err = none ∧
      (∀ j : Nat, j < ([⟨"a", "p0", "m0", true⟩, ⟨"b", "p1", "m1", false⟩] : List Task).length →
        (execRun (dlOfEnv ⟨fun p => if p = "p1" then "m1" else "", fun _ => some "offline",
            fun _ => none⟩ [⟨"a", "p0", "m0", true⟩, ⟨"b", "p1", "m1", false⟩])
          (fun _ => none)
          [⟨"a", "p0", "m0", true⟩, ⟨"b", "p1", "m1", false⟩]).tasks[j]?.map Task.Done =
          some true) :=
  exec_rerun_no_fetch ⟨fun p => if p = "p1" then "m1" else "", fun _ => some "offline",
      fun _ => none⟩ (fun _ => none) [⟨"a", "p0", "m0", true⟩, ⟨"b", "p1", "m1", false⟩]
    (by
      intro j a ha
      match j, ha with
      | 0, ha =>
        left
        simp only [List.getElem?_cons_zero, Option.some_inj] at ha
        rw [← ha]
      | 1, ha =>
        right
        simp only [List.getElem?_cons_succ, List.getElem?_cons_zero,
          Option.some_inj] at ha
        rw [← ha]
        exact ⟨by decide, by decide⟩
      | n + 2, ha => simp at ha)

/-- C5: with tasks before index `k` already done and task `k` pending, a
re-run performs no download invocation for any task already done, the
first download invocation is for task `k`, and download invocations
follow the list order (strictly increasing indices). -/
theorem exec_resume_at_first_pending (dl : Nat → Nat → Option String × Bool)
    (saveRes : List Task → Option String) (tasks : List Task) (k : Nat)
    (hk : k < tasks.length)
    (hpre : ∀ j, j < k → tasks[j]?.map Task.Done = some true)
    (hknot : tasks[k]?.map Task.Done = some false) :
    (∀ j : Nat, tasks[j]?.map Task.Done = some true →
      j ∉ (execRun dl saveRes tasks).attempted) ∧
      (execRun dl saveRes tasks).attempted.head? = some k ∧
      List.Sorted (· < ·) (execRun dl saveRes tasks).attempted := by
  have hattr : (execRun dl saveRes tasks).attempted =
      (execGo dl saveRes tasks.length 0 tasks).attempted := rfl
  obtain ⟨hmem, hsort⟩ := execGo_attempted dl saveRes tasks.length 0 tasks
  refine ⟨?_, ?_, by rw [hattr]; exact hsort⟩
  · intro j hdone hj
    rw [hattr] at hj
    obtain ⟨-, -, hfalse⟩ := hmem j hj
    rw [hdone] at hfalse
    simp at hfalse
  · rw [hattr, (execRun_skip_to dl saveRes tasks k (by omega) hpre).2.2.2]
    obtain ⟨m, hm⟩ : ∃ m, tasks.length - k = m + 1 := ⟨tasks.length - k - 1, by omega⟩
    rw [hm]
    refine execGo_pending_head dl saveRes m k tasks hk ?_
    rw [List.getElem?_eq_getElem hk] at hknot
    simpa using hknot

/-- Witness for C5: tasks 1–2 of 5 done, task 3 pending (0-based index
2): the done tasks are never attempted, the run resumes at index 2 and
attempts in list order. -/
theorem exec_resume_at_first_pending_witness :
    (∀ j : Nat,
      ([⟨"1", "a", "", true⟩, ⟨"2", "b", "", true⟩, ⟨"3", "c", "", false⟩,
        ⟨"4", "d", "", false⟩, ⟨"5", "e", "", true⟩] : List Task)[j]?.map Task.Done =
          some true →
      j ∉ (execRun dlAlwaysOk (fun _ => none)
        [⟨"1", "a", "", true⟩, ⟨"2", "b", "", true⟩, ⟨"3", "c", "", false⟩,
         ⟨"4", "d", "", false⟩, ⟨"5", "e", "", true⟩]).attempted) ∧
      (execRun dlAlwaysOk (fun _ => none)
        [⟨"1", "a", "", true⟩, ⟨"2", "b", "", true⟩, ⟨"3", "c", "", false⟩,
         ⟨"4", "d", "", false⟩, ⟨"5", "e", "", true⟩]).attempted.head? = some 2 ∧
      List.Sorted (· < ·) (execRun dlAlwaysOk (fun _ => none)
        [⟨"1", "a", "", true⟩, ⟨"2", "b", "", true⟩, ⟨"3", "c", "", false⟩,
         ⟨"4", "d", "", false⟩, ⟨"5", "e", "", true⟩]).attempted :=
  exec_resume_at_first_pending dlAlwaysOk (fun _ => none)
    [⟨"1", "a", "", true⟩, ⟨"2", "b", "", true⟩, ⟨"3", "c", "", false⟩,
     ⟨"4", "d", "", false⟩, ⟨"5", "e", "", true⟩] 2 (by decide)
    (by
      intro j hj
      match j, hj with
      | 0, _ => decide
      | 1, _ => decide
      | n + 2, hj => exact absurd hj (by omega))
    (by decide)

theorem execGo_save_independent (dl : Nat → Nat → Option String × Bool)
    (s1 s2 : List Task → Option String) :
    ∀ n i tasks, execGo dl s1 n i tasks = execGo dl s2 n i tasks := by
  intro n
  induction n with
  | zero => intro i tasks; rfl
  | succ n ih =>
    intro i tasks
    simp only [execGo]
    by_cases h : i < tasks.length
    · simp only [dif_pos h]
      by_cases hd : tasks[i].Done
      · simp only [hd, if_true]
        rw [ih (i + 1) tasks]
      · simp only [hd, Bool.false_eq_true, if_false]
        cases hr : (retryGo (dl i) 1 none 0 []).1 with
        | some e => rfl
        | none => rw [ih (i + 1) _]
    · simp only [dif_neg h]

theorem execGo_checkpoint_count (dl : Nat → Nat → Option String × Bool)
    (saveRes : List Task → Option String) :
    ∀ n i tasks,
      (execGo dl saveRes n i tasks).checkpoints.length =
        ((execGo dl saveRes n i tasks).completed.filter
          (fun j => (j + 1) % 10 == 0)).length := by
  intro n
  induction n with
  | zero => intro i tasks; rfl
  | succ n ih =>
    intro i tasks
    simp only [execGo]
    by_cases h : i < tasks.length
    · simp only [dif_pos h]
      by_cases hd : tasks[i].Done
      · simp only [hd, if_true]
        exact ih (i + 1) tasks
      · simp only [hd, Bool.false_eq_true, if_false]
        cases hr : (retryGo (dl i) 1 none 0 []).1 with
        | some e => rfl
        | none =>
          simp only [List.filter_cons]
          by_cases hmod : (i + 1) % 10 = 0
          · simp [hmod, ih (i + 1)]
          · simp [hmod, ih (i + 1)]
    · simp only [dif_neg h]
      rfl

/-- C6 counterexample: a checkpoint-save failure is not logged — the
code discards `saveListFile`'s result silently.  Running ten pending
tasks against a save oracle that fails every save, the run checkpoints
twice (the periodic save after the 10th completed task and the
unconditional final save), both failing, yet the entire run — its log
trace included — is identical to the run whose saves all succeed, and
that log trace holds exactly the ten per-task progress lines and
nothing about any save failure. -/
theorem exec_checkpoint_failure_unlogged_counterexample :
    saveFailDisk (execRun dlAlwaysOk saveFailDisk tasksTen).tasks = some "disk full" ∧
      (execRun dlAlwaysOk saveFailDisk tasksTen).checkpoints.length = 2 ∧
      execRun dlAlwaysOk saveFailDisk tasksTen =
        execRun dlAlwaysOk (fun _ => none) tasksTen ∧
      (execRun dlAlwaysOk saveFailDisk tasksTen).logs =
        [.downloading 0 10, .downloading 1 10, .downloading 2 10, .downloading 3 10,
         .downloading 4 10, .downloading 5 10, .downloading 6 10, .downloading 7 10,
         .downloading 8 10, .downloading 9 10] := by
  have hstep : ∀ i, retryGo (dlAlwaysOk i) 1 none 0 [] = (none, 1, []) := by
    intro i
    rw [retryGo]
    simp [dlAlwaysOk]
  have hev : ∀ i, retryEvents (dlAlwaysOk i) 1 = [] := by
    intro i
    rw [retryEvents]
    simp [dlAlwaysOk]
  refine ⟨rfl, ?_, ?_, ?_⟩
  · simp [execRun, execGo, tasksTen, hstep, hev]
  · show execRun dlAlwaysOk saveFailDisk tasksTen =
      execRun dlAlwaysOk (fun _ => none) tasksTen
    unfold execRun
    rw [execGo_save_independent dlAlwaysOk saveFailDisk (fun _ => none)
      tasksTen.length 0 tasksTen]
  · simp [execRun, execGo, tasksTen, hstep, hev]

/-- C6 (amended: the save failure is silently discarded, not logged):
(1) checkpoint save outcomes never influence the run — the whole result
(final tasks, error, and the full effect trace, the emitted log lines
included) is identical under any two save oracles, so a failed
checkpoint save is swallowed without being logged and never aborts the
run; (2) the last element of the checkpoint trace is the final task
list, saved unconditionally whether the run finished or aborted; (3)
within the loop the list is checkpointed exactly once per completed task
whose 1-based position is a multiple of 10. -/
theorem exec_checkpoint_policy :
    (∀ (dl : Nat → Nat → Option String × Bool) (s1 s2 : List Task → Option String)
        (tasks : List Task), execRun dl s1 tasks = execRun dl s2 tasks) ∧
    (∀ (dl : Nat → Nat → Option String × Bool) (saveRes : List Task → Option String)
        (tasks : List Task),
      (execRun dl saveRes tasks).checkpoints.getLast? =
        some (execRun dl saveRes tasks).tasks) ∧
    (∀ (dl : Nat → Nat → Option String × Bool) (saveRes : List Task → Option String)
        (tasks : List Task),
      (execRun dl saveRes tasks).checkpoints.length =
        ((execRun dl saveRes tasks).completed.filter
          (fun j => (j + 1) % 10 == 0)).length + 1) := by
  refine ⟨?_, ?_, ?_⟩
  · intro dl s1 s2 tasks
    unfold execRun
    rw [execGo_save_independent dl s1 s2 tasks.length 0 tasks]
  · intro dl saveRes tasks
    exact List.getLast?_concat _
  · intro dl saveRes tasks
    have h := execGo_checkpoint_count dl saveRes tasks.length 0 tasks
    show ((execGo dl saveRes tasks.length 0 tasks).checkpoints ++
        [(execGo dl saveRes tasks.length 0 tasks).tasks]).length = _
    rw [List.length_append, h]
    rfl

/-- C10: a run only flips `Done` flags from false to true: the final
task list has the same length, and entrywise the same `FileId`,
`SavePath` and `Md5Checksum` in the same order, as the input list, and
every task that was already done stays done. -/
theorem exec_mutates_only_done (dl : Nat → Nat → Option String × Bool)
    (saveRes : List Task → Option String) (tasks : List Task) :
    ((execRun dl saveRes tasks).tasks.length = tasks.length) ∧
      ((execRun dl saveRes tasks).tasks.map taskKey = tasks.map taskKey) ∧
      (∀ j : Nat, tasks[j]?.map Task.Done = some true →
        (execRun dl saveRes tasks).tasks[j]?.map Task.Done = some true) := by
  obtain ⟨h1, h2, h3⟩ := execGo_frame dl saveRes tasks.length 0 tasks
  have htasks : (execRun dl saveRes tasks).tasks = (execGo dl saveRes tasks.length 0 tasks).tasks := rfl
  refine ⟨by rw [htasks, h1], ?_, by rw [htasks]; exact h3⟩
  rw [htasks]
  apply List.ext_getElem?
  intro j
  rw [List.getElem?_map, List.getElem?_map]
  exact h2 j

/-- Witness for C10 on a concrete two-task list. -/
theorem exec_mutates_only_done_witness :
    ((execRun dlAlwaysOk (fun _ => none)
        [⟨"a", "p", "m", true⟩, ⟨"b", "q", "w", false⟩]).tasks.length =
      ([⟨"a", "p", "m", true⟩, ⟨"b", "q", "w", false⟩] : List Task).length) ∧
      ((execRun dlAlwaysOk (fun _ => none)
          [⟨"a", "p", "m", true⟩, ⟨"b", "q", "w", false⟩]).tasks.map taskKey =
        ([⟨"a", "p", "m", true⟩, ⟨"b", "q", "w", false⟩] : List Task).map taskKey) ∧
      (execRun dlAlwaysOk (fun _ => none)
          [⟨"a", "p", "m", true⟩, ⟨"b", "q", "w", false⟩]).tasks[0]?.map Task.Done =
        some true :=
  ⟨(exec_mutates_only_done dlAlwaysOk (fun _ => none) _).1,
   (exec_mutates_only_done dlAlwaysOk (fun _ => none) _).2.1,
   (exec_mutates_only_done dlAlwaysOk (fun _ => none) _).2.2 0 (by decide)⟩

end GDrive
